import Mathlib

/-!
Verification development for the tamper-evident append-only ledger of
`app.py` (classes `Block` and `SimpleBlockchain`).

Modelling conventions:
* JSON-like Python values (block payloads) are the inductive type `J`.
  Python dicts are association lists in insertion order; Python objects that
  `json.dumps` cannot serialize are the constructor `J.uns`.
* Python numbers are modelled as `Int` (wall-clock floats from `time.time()`
  are opaque data here: the code never computes with them, it only stores and
  serializes them).
* SHA-256 (`hashlib.sha256(...).hexdigest()`) is an external library call; the
  whole development is parameterized over an arbitrary digest function
  `sha : String → String`.
* `json.dumps(x, sort_keys=True)` is factored as recursive key-sorting
  (`canon`) followed by rendering (`render`); `dumps` fails exactly when an
  unserializable value occurs, mirroring the `TypeError` raised by the real
  serializer.  String escaping is not modelled (the digest function is
  abstract, so only which fields reach the serializer and the canonical key
  order are relevant).
* Side effects (wall-clock reads, file writes) are explicit parameters:
  `TimeEnv`/`GenEnv` carry the captured times, and a `Bool` oracle carries
  the success of each file write.
-/

/-- JSON-like values: Python payload data. `uns` stands for a Python object
`json.dumps` cannot serialize (it raises `TypeError` on it). -/
inductive J where
  | null : J
  | bool (b : Bool) : J
  | num (n : Int) : J
  | str (s : String) : J
  | arr (elems : List J) : J
  | obj (fields : List (String × J)) : J
  | uns (tag : Nat) : J

mutual

/-- Structural equality of JSON values (Python `==` on the canonical
association-list representation). -/
def J.beq : J → J → Bool
  | .null, .null => true
  | .bool a, .bool b => a == b
  | .num a, .num b => a == b
  | .str a, .str b => a == b
  | .arr a, .arr b => J.beqList a b
  | .obj a, .obj b => J.beqPairs a b
  | .uns a, .uns b => a == b
  | _, _ => false

def J.beqList : List J → List J → Bool
  | [], [] => true
  | a :: as, b :: bs => J.beq a b && J.beqList as bs
  | _, _ => false

def J.beqPairs : List (String × J) → List (String × J) → Bool
  | [], [] => true
  | (k1, v1) :: as, (k2, v2) :: bs => k1 == k2 && J.beq v1 v2 && J.beqPairs as bs
  | _, _ => false

end

mutual

theorem J.beq_refl : ∀ a : J, J.beq a a = true
  | .null => rfl
  | .bool b => by simp [J.beq]
  | .num n => by simp [J.beq]
  | .str s => by simp [J.beq]
  | .arr l => by simp [J.beq, J.beqList_refl l]
  | .obj l => by simp [J.beq, J.beqPairs_refl l]
  | .uns t => by simp [J.beq]

theorem J.beqList_refl : ∀ l : List J, J.beqList l l = true
  | [] => rfl
  | a :: as => by simp [J.beqList, J.beq_refl a, J.beqList_refl as]

theorem J.beqPairs_refl : ∀ l : List (String × J), J.beqPairs l l = true
  | [] => rfl
  | (k, v) :: rest => by simp [J.beqPairs, J.beq_refl v, J.beqPairs_refl rest]

end

mutual

theorem J.eq_of_beq : ∀ a b : J, J.beq a b = true → a = b
  | .null, .null, _ => rfl
  | .bool a, .bool b, h => by simpa [J.beq] using h
  | .num a, .num b, h => by simpa [J.beq] using h
  | .str a, .str b, h => by simpa [J.beq] using h
  | .arr a, .arr b, h => by
      simp only [J.beq] at h
      exact congrArg J.arr (J.eqList_of_beq a b h)
  | .obj a, .obj b, h => by
      simp only [J.beq] at h
      exact congrArg J.obj (J.eqPairs_of_beq a b h)
  | .uns a, .uns b, h => by simpa [J.beq] using h
  | .null, .bool _, h => by simp [J.beq] at h
  | .null, .num _, h => by simp [J.beq] at h
  | .null, .str _, h => by simp [J.beq] at h
  | .null, .arr _, h => by simp [J.beq] at h
  | .null, .obj _, h => by simp [J.beq] at h
  | .null, .uns _, h => by simp [J.beq] at h
  | .bool _, .null, h => by simp [J.beq] at h
  | .bool _, .num _, h => by simp [J.beq] at h
  | .bool _, .str _, h => by simp [J.beq] at h
  | .bool _, .arr _, h => by simp [J.beq] at h
  | .bool _, .obj _, h => by simp [J.beq] at h
  | .bool _, .uns _, h => by simp [J.beq] at h
  | .num _, .null, h => by simp [J.beq] at h
  | .num _, .bool _, h => by simp [J.beq] at h
  | .num _, .str _, h => by simp [J.beq] at h
  | .num _, .arr _, h => by simp [J.beq] at h
  | .num _, .obj _, h => by simp [J.beq] at h
  | .num _, .uns _, h => by simp [J.beq] at h
  | .str _, .null, h => by simp [J.beq] at h
  | .str _, .bool _, h => by simp [J.beq] at h
  | .str _, .num _, h => by simp [J.beq] at h
  | .str _, .arr _, h => by simp [J.beq] at h
  | .str _, .obj _, h => by simp [J.beq] at h
  | .str _, .uns _, h => by simp [J.beq] at h
  | .arr _, .null, h => by simp [J.beq] at h
  | .arr _, .bool _, h => by simp [J.beq] at h
  | .arr _, .num _, h => by simp [J.beq] at h
  | .arr _, .str _, h => by simp [J.beq] at h
  | .arr _, .obj _, h => by simp [J.beq] at h
  | .arr _, .uns _, h => by simp [J.beq] at h
  | .obj _, .null, h => by simp [J.beq] at h
  | .obj _, .bool _, h => by simp [J.beq] at h
  | .obj _, .num _, h => by simp [J.beq] at h
  | .obj _, .str _, h => by simp [J.beq] at h
  | .obj _, .arr _, h => by simp [J.beq] at h
  | .obj _, .uns _, h => by simp [J.beq] at h
  | .uns _, .null, h => by simp [J.beq] at h
  | .uns _, .bool _, h => by simp [J.beq] at h
  | .uns _, .num _, h => by simp [J.beq] at h
  | .uns _, .str _, h => by simp [J.beq] at h
  | .uns _, .arr _, h => by simp [J.beq] at h
  | .uns _, .obj _, h => by simp [J.beq] at h

theorem J.eqList_of_beq : ∀ a b : List J, J.beqList a b = true → a = b
  | [], [], _ => rfl
  | [], _ :: _, h => by simp [J.beqList] at h
  | _ :: _, [], h => by simp [J.beqList] at h
  | a :: as, b :: bs, h => by
      simp only [J.beqList, Bool.and_eq_true] at h
      rw [J.eq_of_beq a b h.1, J.eqList_of_beq as bs h.2]

theorem J.eqPairs_of_beq : ∀ a b : List (String × J), J.beqPairs a b = true → a = b
  | [], [], _ => rfl
  | [], _ :: _, h => by simp [J.beqPairs] at h
  | _ :: _, [], h => by simp [J.beqPairs] at h
  | (k1, v1) :: as, (k2, v2) :: bs, h => by
      simp only [J.beqPairs, Bool.and_eq_true, beq_iff_eq] at h
      rw [h.1.1, J.eq_of_beq v1 v2 h.1.2, J.eqPairs_of_beq as bs h.2]

end

instance : DecidableEq J := fun a b =>
  if h : J.beq a b = true then isTrue (J.eq_of_beq a b h)
  else isFalse (fun he => h (he ▸ J.beq_refl a))

/-- Lexicographic comparison of strings by code points (Python `<`/`sorted`
order on the keys handed to `json.dumps(..., sort_keys=True)`). -/
def charListLe : List Char → List Char → Bool
  | [], _ => true
  | _ :: _, [] => false
  | a :: as, b :: bs => if a < b then true else if b < a then false else charListLe as bs

def strLe (s t : String) : Bool := charListLe s.data t.data

theorem charListLe_total : ∀ l1 l2 : List Char, charListLe l1 l2 = true ∨ charListLe l2 l1 = true
  | [], _ => Or.inl rfl
  | _ :: _, [] => Or.inr rfl
  | a :: as, b :: bs => by
      rcases lt_trichotomy a b with h | h | h
      · exact Or.inl (by simp [charListLe, h])
      · subst h
        rcases charListLe_total as bs with h2 | h2
        · exact Or.inl (by simp [charListLe, h2])
        · exact Or.inr (by simp [charListLe, h2])
      · exact Or.inr (by simp [charListLe, h])

theorem charListLe_antisymm : ∀ l1 l2 : List Char,
    charListLe l1 l2 = true → charListLe l2 l1 = true → l1 = l2
  | [], [], _, _ => rfl
  | [], _ :: _, _, h => by simp [charListLe] at h
  | _ :: _, [], h, _ => by simp [charListLe] at h
  | a :: as, b :: bs, h1, h2 => by
      rcases lt_trichotomy a b with h | h | h
      · simp [charListLe, h, not_lt_of_lt h] at h2
      · subst h
        simp only [charListLe, lt_irrefl, if_false] at h1 h2
        rw [charListLe_antisymm as bs h1 h2]
      · simp [charListLe, h, not_lt_of_lt h] at h1

theorem charListLe_trans : ∀ l1 l2 l3 : List Char,
    charListLe l1 l2 = true → charListLe l2 l3 = true → charListLe l1 l3 = true
  | [], _, _, _, _ => rfl
  | _ :: _, [], _, h, _ => by simp [charListLe] at h
  | _ :: _, _ :: _, [], _, h => by simp [charListLe] at h
  | a :: as, b :: bs, c :: cs, h1, h2 => by
      rcases lt_trichotomy a b with hab | hab | hab
      · rcases lt_trichotomy b c with hbc | hbc | hbc
        · simp [charListLe, lt_trans hab hbc]
        · subst hbc; simp [charListLe, hab]
        · exfalso
          simp [charListLe, lt_asymm hbc, hbc] at h2
      · subst hab
        rcases lt_trichotomy a c with hac | hac | hac
        · simp [charListLe, hac]
        · subst hac
          simp only [charListLe, lt_irrefl, if_false] at h1 h2 ⊢
          exact charListLe_trans as bs cs h1 h2
        · exfalso
          simp [charListLe, lt_asymm hac, hac] at h2
      · exfalso
        simp [charListLe, lt_asymm hab, hab] at h1

theorem strLe_total (s t : String) : strLe s t = true ∨ strLe t s = true :=
  charListLe_total s.data t.data

theorem strLe_antisymm {s t : String} (h1 : strLe s t = true) (h2 : strLe t s = true) : s = t := by
  apply String.ext
  exact charListLe_antisymm _ _ h1 h2

theorem strLe_trans {s t u : String} (h1 : strLe s t = true) (h2 : strLe t u = true) :
    strLe s u = true :=
  charListLe_trans _ _ _ h1 h2

/-- Order on dict entries used by `sort_keys=True`: compare keys. -/
def keyLe (p q : String × J) : Prop := strLe p.1 q.1 = true

instance : DecidableRel keyLe := fun _ _ => inferInstanceAs (Decidable (_ = true))

instance : IsTotal (String × J) keyLe := ⟨fun p q => strLe_total p.1 q.1⟩

instance : IsTrans (String × J) keyLe := ⟨fun _ _ _ => strLe_trans⟩

/-- Sorting a Python dict's entries by key, as `json.dumps(..., sort_keys=True)`
does before emitting an object. -/
def sortPairs (l : List (String × J)) : List (String × J) := List.insertionSort keyLe l

mutual

/-- Recursively sort every object's keys: the key-ordering part of
`json.dumps(..., sort_keys=True)`. -/
def canon : J → J
  | .null => .null
  | .bool b => .bool b
  | .num n => .num n
  | .str s => .str s
  | .arr l => .arr (canonList l)
  | .obj l => .obj (sortPairs (canonPairs l))
  | .uns t => .uns t

def canonList : List J → List J
  | [] => []
  | j :: rest => canon j :: canonList rest

def canonPairs : List (String × J) → List (String × J)
  | [] => []
  | (k, v) :: rest => (k, canon v) :: canonPairs rest

end

mutual

/-- Does a value contain an unserializable object (would `json.dumps` raise)? -/
def hasUns : J → Bool
  | .null => false
  | .bool _ => false
  | .num _ => false
  | .str _ => false
  | .arr l => hasUnsList l
  | .obj l => hasUnsPairs l
  | .uns _ => true

def hasUnsList : List J → Bool
  | [] => false
  | j :: rest => hasUns j || hasUnsList rest

def hasUnsPairs : List (String × J) → Bool
  | [] => false
  | (_, v) :: rest => hasUns v || hasUnsPairs rest

end

mutual

/-- Emit the JSON text of an (already key-sorted) value, in the default
`json.dumps` layout (`", "` and `": "` separators). -/
def render : J → String
  | .null => "null"
  | .bool true => "true"
  | .bool false => "false"
  | .num n => toString n
  | .str s => "\"" ++ s ++ "\""
  | .arr l => "[" ++ renderList l ++ "]"
  | .obj l => "\x7b" ++ renderPairs l ++ "\x7d"
  | .uns _ => "<unserializable>"

def renderList : List J → String
  | [] => ""
  | [j] => render j
  | j :: rest => render j ++ ", " ++ renderList rest

def renderPairs : List (String × J) → String
  | [] => ""
  | [(k, v)] => "\"" ++ k ++ "\": " ++ render v
  | (k, v) :: rest => "\"" ++ k ++ "\": " ++ render v ++ ", " ++ renderPairs rest

end

/-- `json.dumps(j, sort_keys=True)`: `none` models the `TypeError` raised on
an unserializable value, otherwise the canonically ordered JSON text. -/
def dumps (j : J) : Option String :=
  if hasUns j then none else some (render (canon j))

example : dumps (J.obj [("b", J.num 1), ("a", J.obj [("z", J.null), ("y", J.bool true)])]) =
    some "\x7b\"a\": \x7b\"y\": true, \"z\": null\x7d, \"b\": 1\x7d" := by decide

example : dumps (J.obj [("a", J.uns 0)]) = none := by decide

/-- A ledger block (`class Block` in `app.py`).  `data` is the payload dict,
`created_at` the informational ISO timestamp (excluded from the hash). -/
structure Block where
  index : Int
  timestamp : Int
  data : List (String × J)
  previous_hash : String
  nonce : Int
  hash : String
  created_at : String
deriving DecidableEq

/-- The dict `Block.compute_hash` serializes:
`{"index": ..., "timestamp": ..., "data": ..., "previous_hash": ..., "nonce": ...}`. -/
def hashInput (b : Block) : J :=
  J.obj [("index", J.num b.index), ("timestamp", J.num b.timestamp),
         ("data", J.obj b.data), ("previous_hash", J.str b.previous_hash),
         ("nonce", J.num b.nonce)]

/-- The constant digest `"0" * 64` returned when serialization raises. -/
def fallbackHash : String := String.mk (List.replicate 64 '0')

/-- `Block.compute_hash`: SHA-256 hex digest of the canonical serialization of
the five hashed fields; on a serialization error, the fallback `"0" * 64`. -/
def compute_hash (sha : String → String) (b : Block) : String :=
  match dumps (hashInput b) with
  | some s => sha s
  | none => fallbackHash

/-- `Block.__init__(index, timestamp, data, previous_hash)`: nonce starts at 0
and the hash is computed immediately; `created_at` is the construction time. -/
def Block.make (sha : String → String) (index : Int) (timestamp : Int)
    (data : List (String × J)) (previous_hash : String) (created_at : String) : Block :=
  let b : Block := { index := index, timestamp := timestamp, data := data,
                     previous_hash := previous_hash, nonce := 0, hash := "",
                     created_at := created_at }
  { b with hash := compute_hash sha b }

/-- Python `str.startswith`. -/
def strStarts (p s : String) : Bool := p.data.isPrefixOf s.data

/-- `"0" * difficulty` (empty for non-positive difficulty, as in Python). -/
def zeros (d : Int) : String := String.mk (List.replicate d.toNat '0')

/-- The iteration cap of `Block.mine` (`max_iterations = 1000000`). -/
def maxIterations : Nat := 1000000

/-- The mining loop of `Block.mine`: `fuel` is the number of iterations still
allowed (`max_iterations - iteration`); the state is (nonce, hash).  Mirrors
`while not self.hash.startswith(prefix) and iteration < max_iterations:` and
the final `if iteration >= max_iterations: return False`. -/
def mineGo (pre : String) (hashAt : Int → String) : Nat → Int → String → Bool × Int × String
  | 0, n, h => (false, n, h)
  | fuel + 1, n, h =>
    if strStarts pre h then (true, n, h)
    else mineGo pre hashAt fuel (n + 1) (hashAt (n + 1))

/-- `Block.mine(difficulty)`: proof-of-work search mutating nonce and hash. -/
def Block.mine (sha : String → String) (b : Block) (difficulty : Int) : Bool × Block :=
  let r := mineGo (zeros difficulty) (fun n => compute_hash sha { b with nonce := n })
    maxIterations b.nonce b.hash
  (r.1, { b with nonce := r.2.1, hash := r.2.2 })

/-- Python dict update `d[k] = v` (as performed by `{**data, k: v, ...}`):
replace in place if the key exists, else append. -/
def dictInsert (l : List (String × J)) (k : String) (v : J) : List (String × J) :=
  if l.any (fun p => p.1 == k) then l.map (fun p => if p.1 == k then (k, v) else p)
  else l ++ [(k, v)]

/-- Wall-clock captures made during one `add_block` call: the
`datetime.now().isoformat()` stamped into the enhanced payload, the
`time.time()` for the block, and the `datetime.now().isoformat()` captured by
`Block.__init__` for `created_at`. -/
structure TimeEnv where
  bts : String
  t : Int
  created : String

/-- Environment of one `create_genesis` call: the two ISO timestamps, the
`time.time()` value, and the outcome of its `save_chain` write. -/
structure GenEnv where
  iso : String
  t : Int
  created : String
  saveOk : Bool

/-- In-memory state of `class SimpleBlockchain`. -/
structure SimpleBlockchain where
  difficulty : Int
  chain_file : String
  chain : List Block
  pending_transactions : List (List (String × J))
deriving DecidableEq

/-- The fixed payload of a synthesized genesis block (`genesis_data`). -/
def genesisData (iso : String) : List (String × J) :=
  [("genesis", J.bool true),
   ("message", J.str "Quantum-Blockchain Voting System Genesis Block"),
   ("timestamp", J.str iso),
   ("version", J.str "2.0"),
   ("system", J.str "enhanced")]

/-- The genesis candidate built by `create_genesis`:
`Block(0, time.time(), genesis_data, "0")`. -/
def genesisBlock (sha : String → String) (e : GenEnv) : Block :=
  Block.make sha 0 e.t (genesisData e.iso) "0" e.created

/-- `SimpleBlockchain.create_genesis`: mine the genesis candidate; on success
set the chain to it and try to persist (a failed write leaves the one-block
chain in memory but reports failure); a mining failure changes nothing. -/
def create_genesis (sha : String → String) (bc : SimpleBlockchain) (e : GenEnv) :
    Bool × SimpleBlockchain :=
  let m := Block.mine sha (genesisBlock sha e) bc.difficulty
  if m.1 then
    let bc' := { bc with chain := [m.2] }
    if e.saveOk then (true, bc') else (false, bc')
  else (false, bc)

/-- The per-block checks of `SimpleBlockchain.is_valid`'s loop, threaded with
the predecessor: hash integrity, linkage, sequential index, proof of work. -/
def chainChecks (sha : String → String) (difficulty : Int) : Block → List Block → Bool
  | _, [] => true
  | prev, c :: rest =>
    (compute_hash sha c == c.hash) && (c.previous_hash == prev.hash) &&
      (c.index == prev.index + 1) && strStarts (zeros difficulty) c.hash &&
      chainChecks sha difficulty c rest

/-- `SimpleBlockchain.is_valid`: empty chain is invalid; the genesis block must
have index 0 and previous hash `"0"`; every later block passes `chainChecks`. -/
def is_valid (sha : String → String) (bc : SimpleBlockchain) : Bool :=
  match bc.chain with
  | [] => false
  | g :: rest => (g.index == 0) && (g.previous_hash == "0") && chainChecks sha bc.difficulty g rest

/-- `SimpleBlockchain.get_latest_block`. -/
def get_latest_block (bc : SimpleBlockchain) : Option Block := bc.chain.getLast?

/-- The enhanced payload built by `add_block`:
`{**data, "block_timestamp": ..., "previous_block_hash": ..., "block_version": "2.0"}`. -/
def enhancePayload (data : List (String × J)) (te : TimeEnv) (tailHash : String) :
    List (String × J) :=
  dictInsert (dictInsert (dictInsert data "block_timestamp" (J.str te.bts))
    "previous_block_hash" (J.str tailHash)) "block_version" (J.str "2.0")

/-- The candidate block `add_block` builds on top of tail block `t`. -/
def candidateBlock (sha : String → String) (t : Block) (data : List (String × J))
    (te : TimeEnv) : Block :=
  Block.make sha (t.index + 1) te.t (enhancePayload data te t.hash) t.hash te.created

/-- `SimpleBlockchain.add_block(data)`: synthesize genesis if the chain is
empty (aborting on failure), build and mine the candidate, append it, persist
(`saveOk` oracle), and pop the appended block again if persisting fails.
Returns the new block on success, `None` on any failure. -/
def add_block (sha : String → String) (bc : SimpleBlockchain) (data : List (String × J))
    (te : TimeEnv) (ge : GenEnv) (saveOk : Bool) : Option Block × SimpleBlockchain :=
  let afterGenesis : Bool × SimpleBlockchain :=
    if bc.chain.isEmpty then create_genesis sha bc ge else (true, bc)
  if afterGenesis.1 then
    let bc1 := afterGenesis.2
    match get_latest_block bc1 with
    | none => (none, bc1)
    | some last =>
      let m := Block.mine sha (candidateBlock sha last data te) bc1.difficulty
      if m.1 then
        let bc2 := { bc1 with chain := bc1.chain ++ [m.2] }
        if saveOk then (some m.2, bc2)
        else (none, { bc2 with chain := bc2.chain.dropLast })
      else (none, bc1)
  else (none, afterGenesis.2)

/-- One persisted block record, as parsed from `chain.json`.  A `none` field is
a key missing from the record's dict.  (A list element that is not a dict at
all trips the same `create_genesis` recovery path as a record with all keys
missing, so it is modelled by the all-`none` record.) -/
structure Rec where
  index : Option Int
  timestamp : Option Int
  data : Option (List (String × J))
  previous_hash : Option String
  nonce : Option Int
  hash : Option String
  created_at : Option String
deriving DecidableEq

/-- The persisted chain file: `absent` covers a missing file and a JSON/IO
decode error, `notList` a parse result that is not a list, `records` a parsed
list (the loader treats `[]` like a falsy value and recreates genesis). -/
inductive PersistedFile where
  | absent : PersistedFile
  | notList : PersistedFile
  | records (rs : List Rec) : PersistedFile
deriving DecidableEq

/-- Reconstruct one `Block` from a record: requires
`["index", "timestamp", "data", "previous_hash", "hash"]`; `nonce` defaults to
0 and `created_at` to a fresh timestamp; the stored hash is kept verbatim
(never recomputed on load). -/
def recToBlock (r : Rec) (nowIso : String) : Option Block :=
  match r.index, r.timestamp, r.data, r.previous_hash, r.hash with
  | some i, some t, some d, some p, some h =>
      some { index := i, timestamp := t, data := d, previous_hash := p,
             nonce := r.nonce.getD 0, hash := h, created_at := r.created_at.getD nowIso }
  | _, _, _, _, _ => none

/-- The record loop of `load_chain`: blocks are appended one by one, so on the
first bad record the partially rebuilt chain is what is in memory.  Returns
`(some blocks, blocks)` on success and `(none, partial)` on failure. -/
def loadGo (nowIso : String) (acc : List Block) :
    List Rec → Option (List Block) × List Block
  | [] => (some acc, acc)
  | r :: rest =>
    match recToBlock r nowIso with
    | some b => loadGo nowIso (acc ++ [b]) rest
    | none => (none, acc)

/-- `SimpleBlockchain.load_chain`: missing/corrupt file, empty or non-list
content, a record with missing fields, or a reconstructed chain failing
`is_valid` all route through `create_genesis`; otherwise the loaded blocks
become the chain. -/
def load_chain (sha : String → String) (bc : SimpleBlockchain) (file : PersistedFile)
    (nowIso : String) (ge : GenEnv) : Bool × SimpleBlockchain :=
  match file with
  | .absent => create_genesis sha bc ge
  | .notList => create_genesis sha bc ge
  | .records rs =>
    if rs.isEmpty then create_genesis sha bc ge
    else
      match loadGo nowIso [] rs with
      | (none, partialChain) =>
          create_genesis sha { bc with chain := partialChain } ge
      | (some blocks, _) =>
          let bc1 := { bc with chain := blocks }
          if is_valid sha bc1 then (true, bc1) else create_genesis sha bc1 ge

/-- `SimpleBlockchain.__init__(difficulty, chain_file)`: clamp the difficulty
with `max(1, min(difficulty, 4))`, start from an empty chain, and load. -/
def mkSimpleBlockchain (sha : String → String) (difficulty : Int) (chain_file : String)
    (file : PersistedFile) (nowIso : String) (ge : GenEnv) : SimpleBlockchain :=
  let bc0 : SimpleBlockchain := { difficulty := max 1 (min difficulty 4),
                                  chain_file := chain_file, chain := [],
                                  pending_transactions := [] }
  (load_chain sha bc0 file nowIso ge).2

/-- The per-block test of `search_blocks`: every criteria key must be present
in the payload with exactly that value (the inner `for`/`break` loop). -/
def blockMatches (criteria : List (String × J)) (b : Block) : Bool :=
  criteria.all (fun kv =>
    match b.data.lookup kv.1 with
    | some v => v == kv.2
    | none => false)

/-- The accumulating scan of `search_blocks` (`matching_blocks.append(...)`). -/
def searchGo (criteria : List (String × J)) (acc : List Block) : List Block → List Block
  | [] => acc
  | b :: rest =>
    searchGo criteria (if blockMatches criteria b then acc ++ [b] else acc) rest

/-- `SimpleBlockchain.search_blocks(criteria)`. -/
def search_blocks (bc : SimpleBlockchain) (criteria : List (String × J)) : List Block :=
  searchGo criteria [] bc.chain

/-! ### Generic lemmas about the mining loop -/

/-- The hash the mining loop sees after `k` iterations when it starts from
nonce `n` and stored hash `h`: the stored hash for `k = 0`, afterwards the
recomputed hash at nonce `n + k`. -/
def mineSeq (hashAt : Int → String) (n : Int) (h : String) : Nat → String
  | 0 => h
  | k + 1 => hashAt (n + (k + 1))

theorem mineSeq_shift (hashAt : Int → String) (n : Int) (h : String) (k : Nat) :
    mineSeq hashAt (n + 1) (hashAt (n + 1)) k = mineSeq hashAt n h (k + 1) := by
  cases k with
  | zero => simp [mineSeq]
  | succ j =>
    simp only [mineSeq]
    congr 1
    push_cast
    ring

theorem mineGo_true_iff (pre : String) (hashAt : Int → String) :
    ∀ (fuel : Nat) (n : Int) (h : String),
      (mineGo pre hashAt fuel n h).1 = true ↔
        ∃ k, k < fuel ∧ strStarts pre (mineSeq hashAt n h k) = true
  | 0, n, h => by simp [mineGo]
  | fuel + 1, n, h => by
    rw [mineGo]
    by_cases hh : strStarts pre h = true
    · simp only [hh, if_true]
      constructor
      · intro _
        exact ⟨0, Nat.succ_pos fuel, hh⟩
      · intro _
        trivial
    · simp only [hh, Bool.false_eq_true, if_false]
      rw [mineGo_true_iff pre hashAt fuel (n + 1) (hashAt (n + 1))]
      constructor
      · rintro ⟨k, hk, hs⟩
        exact ⟨k + 1, by omega, by rw [← mineSeq_shift hashAt n h k]; exact hs⟩
      · rintro ⟨k, hk, hs⟩
        cases k with
        | zero => exact absurd hs hh
        | succ j =>
          exact ⟨j, by omega, by rw [mineSeq_shift hashAt n h j]; exact hs⟩

theorem mineGo_state (pre : String) (hashAt : Int → String) :
    ∀ (fuel : Nat) (n : Int) (h : String),
      ∃ k, k ≤ fuel ∧ (mineGo pre hashAt fuel n h).2.1 = n + k ∧
        (mineGo pre hashAt fuel n h).2.2 = mineSeq hashAt n h k
  | 0, n, h => ⟨0, by simp [mineGo, mineSeq]⟩
  | fuel + 1, n, h => by
    rw [mineGo]
    by_cases hh : strStarts pre h = true
    · exact ⟨0, by simp [hh, mineSeq]⟩
    · simp only [hh, Bool.false_eq_true, if_false]
      obtain ⟨k, hk, h1, h2⟩ := mineGo_state pre hashAt fuel (n + 1) (hashAt (n + 1))
      refine ⟨k + 1, by omega, ?_, ?_⟩
      · rw [h1]; push_cast; ring
      · rw [h2, mineSeq_shift hashAt n h k]

theorem mineGo_true_starts (pre : String) (hashAt : Int → String) :
    ∀ (fuel : Nat) (n : Int) (h : String),
      (mineGo pre hashAt fuel n h).1 = true →
        strStarts pre (mineGo pre hashAt fuel n h).2.2 = true
  | 0, n, h => by simp [mineGo]
  | fuel + 1, n, h => by
    rw [mineGo]
    by_cases hh : strStarts pre h = true
    · simp [hh]
    · simp only [hh, Bool.false_eq_true, if_false]
      exact mineGo_true_starts pre hashAt fuel (n + 1) (hashAt (n + 1))

theorem mineGo_hash_inv (pre : String) (hashAt : Int → String) :
    ∀ (fuel : Nat) (n : Int) (h : String), h = hashAt n →
      (mineGo pre hashAt fuel n h).2.2 = hashAt (mineGo pre hashAt fuel n h).2.1
  | 0, n, h, hinv => by simpa [mineGo] using hinv
  | fuel + 1, n, h, hinv => by
    rw [mineGo]
    by_cases hh : strStarts pre h = true
    · simpa [hh] using hinv
    · simp only [hh, Bool.false_eq_true, if_false]
      exact mineGo_hash_inv pre hashAt fuel (n + 1) (hashAt (n + 1)) rfl

theorem mineGo_false_of_all_fail (pre : String) (hashAt : Int → String) :
    ∀ (fuel : Nat) (n : Int) (h : String),
      (∀ k, k < fuel → strStarts pre (mineSeq hashAt n h k) = false) →
      (mineGo pre hashAt fuel n h).1 = false := by
  intro fuel n h hall
  rcases hfl : (mineGo pre hashAt fuel n h).1 with _ | _
  · rfl
  · obtain ⟨k, hk, hs⟩ := (mineGo_true_iff pre hashAt fuel n h).mp hfl
    rw [hall k hk] at hs
    exact absurd hs (by simp)

/-! ### Lemmas about `compute_hash` and `Block.mine` -/

/-- `compute_hash` reads exactly the five hashed fields: two blocks agreeing on
them (whatever their `hash` and `created_at`) get the same digest. -/
theorem compute_hash_congr (sha : String → String) {b1 b2 : Block}
    (hi : b1.index = b2.index) (ht : b1.timestamp = b2.timestamp)
    (hd : b1.data = b2.data) (hp : b1.previous_hash = b2.previous_hash)
    (hn : b1.nonce = b2.nonce) : compute_hash sha b1 = compute_hash sha b2 := by
  have : hashInput b1 = hashInput b2 := by
    simp [hashInput, hi, ht, hd, hp, hn]
  simp [compute_hash, this]

theorem Block.make_hash_consistent (sha : String → String) (i t : Int)
    (d : List (String × J)) (p c : String) :
    (Block.make sha i t d p c).hash = compute_hash sha (Block.make sha i t d p c) := by
  show compute_hash sha _ = compute_hash sha _
  exact compute_hash_congr sha rfl rfl rfl rfl rfl

/-- The hash the mining loop of block `b` sees after `k` iterations. -/
def hashSeq (sha : String → String) (b : Block) : Nat → String :=
  mineSeq (fun n => compute_hash sha { b with nonce := n }) b.nonce b.hash

theorem mine_fields (sha : String → String) (b : Block) (d : Int) :
    (Block.mine sha b d).2.index = b.index ∧
    (Block.mine sha b d).2.timestamp = b.timestamp ∧
    (Block.mine sha b d).2.data = b.data ∧
    (Block.mine sha b d).2.previous_hash = b.previous_hash ∧
    (Block.mine sha b d).2.created_at = b.created_at :=
  ⟨rfl, rfl, rfl, rfl, rfl⟩

theorem mine_true_iff (sha : String → String) (b : Block) (d : Int) :
    (Block.mine sha b d).1 = true ↔
      ∃ k, k < maxIterations ∧ strStarts (zeros d) (hashSeq sha b k) = true :=
  mineGo_true_iff (zeros d) (fun n => compute_hash sha { b with nonce := n })
    maxIterations b.nonce b.hash

theorem mine_true_starts (sha : String → String) (b : Block) (d : Int)
    (h : (Block.mine sha b d).1 = true) :
    strStarts (zeros d) (Block.mine sha b d).2.hash = true :=
  mineGo_true_starts (zeros d) (fun n => compute_hash sha { b with nonce := n })
    maxIterations b.nonce b.hash h

theorem mine_state (sha : String → String) (b : Block) (d : Int) :
    ∃ k, k ≤ maxIterations ∧ (Block.mine sha b d).2.nonce = b.nonce + k ∧
      (Block.mine sha b d).2.hash = hashSeq sha b k :=
  mineGo_state (zeros d) (fun n => compute_hash sha { b with nonce := n })
    maxIterations b.nonce b.hash

/-- If the block enters mining hash-consistent (as a freshly constructed block
does), it leaves mining hash-consistent. -/
theorem mine_hash_consistent (sha : String → String) (b : Block) (d : Int)
    (hc : b.hash = compute_hash sha b) :
    (Block.mine sha b d).2.hash = compute_hash sha (Block.mine sha b d).2 := by
  have hstart : b.hash = compute_hash sha { b with nonce := b.nonce } := hc
  have h1 := mineGo_hash_inv (zeros d) (fun n => compute_hash sha { b with nonce := n })
    maxIterations b.nonce b.hash hstart
  show (mineGo _ _ _ _ _).2.2 = compute_hash sha _
  rw [h1]
  exact compute_hash_congr sha rfl rfl rfl rfl rfl

/-! ### Characterizing `is_valid` -/

/-- The linkage relation between consecutive blocks that `is_valid` enforces. -/
def linkRel (a b : Block) : Prop := b.previous_hash = a.hash ∧ b.index = a.index + 1

theorem chainChecks_iff (sha : String → String) (d : Int) :
    ∀ (l : List Block) (prev : Block),
      chainChecks sha d prev l = true ↔
        (∀ b ∈ l, compute_hash sha b = b.hash ∧ strStarts (zeros d) b.hash = true) ∧
          List.Chain' linkRel (prev :: l)
  | [], prev => by simp [chainChecks]
  | c :: rest, prev => by
    rw [chainChecks]
    simp only [Bool.and_eq_true, beq_iff_eq, chainChecks_iff sha d rest c,
      List.chain'_cons, List.mem_cons]
    constructor
    · rintro ⟨⟨⟨⟨h1, h2⟩, h3⟩, h4⟩, h5, h6⟩
      refine ⟨?_, ⟨h2, h3⟩, h6⟩
      rintro b (rfl | hb)
      · exact ⟨h1, h4⟩
      · exact h5 b hb
    · rintro ⟨hall, ⟨h2, h3⟩, h6⟩
      obtain ⟨h1, h4⟩ := hall c (Or.inl rfl)
      exact ⟨⟨⟨⟨h1, h2⟩, h3⟩, h4⟩, fun b hb => hall b (Or.inr hb), h6⟩

/-- What `is_valid` actually checks: nonempty chain, genesis sentinel fields,
and for every block after the first: hash integrity, proof of work, and the
linkage/indexing relation to its predecessor.  Note the genesis block's own
hash and proof of work are not examined. -/
theorem is_valid_iff (sha : String → String) (bc : SimpleBlockchain) :
    is_valid sha bc = true ↔
      ∃ g rest, bc.chain = g :: rest ∧ g.index = 0 ∧ g.previous_hash = "0" ∧
        (∀ b ∈ rest, compute_hash sha b = b.hash ∧
          strStarts (zeros bc.difficulty) b.hash = true) ∧
        List.Chain' linkRel (g :: rest) := by
  rcases hch : bc.chain with _ | ⟨g, rest⟩
  · simp [is_valid, hch]
  · rw [is_valid, hch]
    simp only [Bool.and_eq_true, beq_iff_eq, chainChecks_iff]
    constructor
    · rintro ⟨⟨h1, h2⟩, h3, h4⟩
      exact ⟨g, rest, rfl, h1, h2, h3, h4⟩
    · rintro ⟨g', rest', heq, h1, h2, h3, h4⟩
      obtain ⟨rfl, rfl⟩ : g = g' ∧ rest = rest' := by
        constructor <;> [exact (List.cons.injEq .. ▸ heq).1; exact (List.cons.injEq .. ▸ heq).2]
      exact ⟨⟨h1, h2⟩, h3, h4⟩

/-! ### Canonical serialization: sortedness and key-permutation invariance -/

theorem canonPairs_eq_map : ∀ l : List (String × J),
    canonPairs l = l.map (fun p => (p.1, canon p.2))
  | [] => rfl
  | (k, v) :: rest => by rw [canonPairs, canonPairs_eq_map rest, List.map_cons]

theorem hasUnsPairs_eq_any : ∀ l : List (String × J),
    hasUnsPairs l = l.any (fun p => hasUns p.2)
  | [] => rfl
  | (k, v) :: rest => by rw [hasUnsPairs, hasUnsPairs_eq_any rest, List.any_cons]

theorem perm_any {α : Type} {l1 l2 : List α} (h : l1.Perm l2) (f : α → Bool) :
    l1.any f = l2.any f := by
  rw [Bool.eq_iff_iff]
  simp only [List.any_eq_true]
  exact ⟨fun ⟨x, hx, hfx⟩ => ⟨x, h.mem_iff.mp hx, hfx⟩,
         fun ⟨x, hx, hfx⟩ => ⟨x, h.mem_iff.mpr hx, hfx⟩⟩

theorem sortPairs_sorted (l : List (String × J)) : List.Sorted keyLe (sortPairs l) :=
  List.sorted_insertionSort keyLe l

theorem sortPairs_perm (l : List (String × J)) : (sortPairs l).Perm l :=
  List.perm_insertionSort keyLe l

/-- Two sorted association lists that are permutations of each other and have
pairwise-distinct keys are equal. -/
theorem sorted_perm_nodupkeys_eq :
    ∀ (l1 l2 : List (String × J)), l1.Perm l2 → List.Sorted keyLe l1 →
      List.Sorted keyLe l2 → (l1.map Prod.fst).Nodup → l1 = l2
  | [], l2, hp, _, _, _ => (hp.nil_eq).symm ▸ rfl
  | p :: t, l2, hp, hs1, hs2, hnd => by
    rcases l2 with _ | ⟨q, t2⟩
    · exact absurd hp.symm.nil_eq (by simp)
    · have hpq : p = q := by
        by_contra hne
        have hpmem : p ∈ q :: t2 := hp.mem_iff.mp (List.mem_cons_self p t)
        have hqmem : q ∈ p :: t := hp.mem_iff.mpr (List.mem_cons_self q t2)
        have hpt2 : p ∈ t2 := by
          rcases List.mem_cons.mp hpmem with h | h
          · exact absurd h hne
          · exact h
        have hqt : q ∈ t := by
          rcases List.mem_cons.mp hqmem with h | h
          · exact absurd h (fun he => hne he.symm)
          · exact h
        have h1 : keyLe q p := (List.sorted_cons.mp hs2).1 p hpt2
        have h2 : keyLe p q := (List.sorted_cons.mp hs1).1 q hqt
        have hkeys : p.1 = q.1 := strLe_antisymm h2 h1
        have : q.1 ∈ t.map Prod.fst := List.mem_map_of_mem Prod.fst hqt
        have hnotin : p.1 ∉ t.map Prod.fst := (List.nodup_cons.mp hnd).1
        exact hnotin (hkeys ▸ this)
      subst hpq
      have htail : t.Perm t2 := hp.cons_inv
      have := sorted_perm_nodupkeys_eq t t2 htail (List.sorted_cons.mp hs1).2
        (List.sorted_cons.mp hs2).2 (List.nodup_cons.mp hnd).2
      rw [this]

/-- Sorting by key is a canonical form: permuting a dict with distinct keys
does not change the sorted result. -/
theorem sortPairs_perm_invariant {l1 l2 : List (String × J)} (hp : l1.Perm l2)
    (hnd : (l1.map Prod.fst).Nodup) : sortPairs l1 = sortPairs l2 := by
  apply sorted_perm_nodupkeys_eq _ _ ((sortPairs_perm l1).trans (hp.trans (sortPairs_perm l2).symm))
    (sortPairs_sorted l1) (sortPairs_sorted l2)
  have : ((sortPairs l1).map Prod.fst).Perm (l1.map Prod.fst) := (sortPairs_perm l1).map Prod.fst
  exact this.nodup_iff.mpr hnd

theorem hasUns_hashInput (b : Block) : hasUns (hashInput b) = hasUnsPairs b.data := by
  simp [hashInput, hasUns, hasUnsPairs, hasUnsList]

/-- `compute_hash` under a permutation of the payload dict (with distinct
keys): the canonical key ordering makes the digests equal. -/
theorem compute_hash_perm (sha : String → String) {b1 b2 : Block}
    (hi : b1.index = b2.index) (ht : b1.timestamp = b2.timestamp)
    (hp : b1.previous_hash = b2.previous_hash) (hn : b1.nonce = b2.nonce)
    (hdp : b1.data.Perm b2.data) (hnd : (b1.data.map Prod.fst).Nodup) :
    compute_hash sha b1 = compute_hash sha b2 := by
  have hdata : canon (J.obj b1.data) = canon (J.obj b2.data) := by
    show J.obj (sortPairs (canonPairs b1.data)) = J.obj (sortPairs (canonPairs b2.data))
    rw [canonPairs_eq_map, canonPairs_eq_map]
    congr 1
    apply sortPairs_perm_invariant (hdp.map _)
    rw [List.map_map]
    exact hnd
  have huns : hasUns (hashInput b1) = hasUns (hashInput b2) := by
    rw [hasUns_hashInput, hasUns_hashInput, hasUnsPairs_eq_any, hasUnsPairs_eq_any]
    exact perm_any hdp _
  have hcanon : canon (hashInput b1) = canon (hashInput b2) := by
    show J.obj (sortPairs (canonPairs _)) = J.obj (sortPairs (canonPairs _))
    rw [canonPairs_eq_map, canonPairs_eq_map]
    simp only [hashInput, List.map_cons, List.map_nil]
    rw [hi, ht, hp, hn, hdata]
  unfold compute_hash dumps
  rw [huns, hcanon]

/-! ### Helper lemmas for the remaining operations -/

def isHexChar (c : Char) : Bool := "0123456789abcdef".data.contains c

theorem isPrefixOf_eq_true {l1 l2 : List Char} (h : l1 <+: l2) : l1.isPrefixOf l2 = true :=
  List.isPrefixOf_iff_prefix.mpr h

theorem compute_hash_of_uns (sha : String → String) {b : Block}
    (hu : hasUnsPairs b.data = true) : compute_hash sha b = fallbackHash := by
  unfold compute_hash dumps
  rw [hasUns_hashInput, hu]
  rfl

theorem compute_hash_of_serializable (sha : String → String) {b : Block}
    (hu : hasUnsPairs b.data = false) :
    compute_hash sha b = sha (render (canon (hashInput b))) := by
  unfold compute_hash dumps
  rw [hasUns_hashInput, hu]
  rfl

theorem zeros_starts_fallback {d : Int} (hd : d ≤ 64) :
    strStarts (zeros d) fallbackHash = true := by
  apply isPrefixOf_eq_true
  show List.replicate d.toNat '0' <+: List.replicate 64 '0'
  refine ⟨List.replicate (64 - d.toNat) '0', ?_⟩
  rw [← List.replicate_add]
  congr 1
  omega

theorem create_genesis_difficulty (sha : String → String) (bc : SimpleBlockchain) (ge : GenEnv) :
    (create_genesis sha bc ge).2.difficulty = bc.difficulty := by
  simp only [create_genesis]
  split
  · split <;> rfl
  · rfl

theorem create_genesis_file (sha : String → String) (bc : SimpleBlockchain) (ge : GenEnv) :
    (create_genesis sha bc ge).2.chain_file = bc.chain_file := by
  simp only [create_genesis]
  split
  · split <;> rfl
  · rfl

theorem load_chain_difficulty (sha : String → String) (bc : SimpleBlockchain)
    (file : PersistedFile) (nowIso : String) (ge : GenEnv) :
    (load_chain sha bc file nowIso ge).2.difficulty = bc.difficulty := by
  rcases file with _ | _ | rs
  · exact create_genesis_difficulty ..
  · exact create_genesis_difficulty ..
  · simp only [load_chain]
    split
    · exact create_genesis_difficulty ..
    · split
      · exact create_genesis_difficulty ..
      · split
        · rfl
        · exact create_genesis_difficulty ..

theorem add_block_difficulty (sha : String → String) (bc : SimpleBlockchain)
    (data : List (String × J)) (te : TimeEnv) (ge : GenEnv) (saveOk : Bool) :
    (add_block sha bc data te ge saveOk).2.difficulty = bc.difficulty := by
  by_cases he : bc.chain.isEmpty = true
  · simp only [add_block, he, if_true]
    by_cases h1 : (create_genesis sha bc ge).1 = true
    · simp only [h1, if_true]
      rcases hlb : get_latest_block (create_genesis sha bc ge).2 with _ | last
      · simp [hlb, create_genesis_difficulty]
      · simp only [hlb]
        rw [create_genesis_difficulty sha bc ge]
        by_cases hm : (Block.mine sha (candidateBlock sha last data te) bc.difficulty).1 = true
        · by_cases hs : saveOk = true <;> simp [hm, hs]
        · simp [hm, create_genesis_difficulty]
    · simp [h1, create_genesis_difficulty]
  · rcases hlb : get_latest_block bc with _ | last
    · simp [add_block, he, hlb]
    · by_cases hm : (Block.mine sha (candidateBlock sha last data te) bc.difficulty).1 = true
      · by_cases hs : saveOk = true <;> simp [add_block, he, hlb, hm, hs]
      · simp [add_block, he, hlb, hm]

/-! ### Concrete instances used by witnesses and counterexamples -/

/-- A digest function that is constant `"00aa"`: mining at difficulty ≤ 2
succeeds immediately on serializable payloads. -/
def shaA : String → String := fun _ => "00aa"

/-- A digest function returning a fixed 64-character hex string. -/
def shaHex : String → String := fun _ => String.mk (List.replicate 64 'a')

/-- A well-formed tail block whose stored hash agrees with `shaA`. -/
def blockA : Block :=
  { index := 0, timestamp := 0, data := [], previous_hash := "0",
    nonce := 0, hash := "00aa", created_at := "c" }

/-- A chain holding just `blockA`. -/
def bcA : SimpleBlockchain :=
  { difficulty := 2, chain_file := "data/chain.json", chain := [blockA],
    pending_transactions := [] }

def teA : TimeEnv := { bts := "2024-01-01T00:00:00", t := 7, created := "2024-01-01T00:00:01" }

def geA : GenEnv := { iso := "g0", t := 1, created := "g1", saveOk := true }

/-- `geA` with a failing persistence write. -/
def geFail : GenEnv := { iso := "g0", t := 1, created := "g1", saveOk := false }

/-- Two blocks agreeing on the five hashed fields up to a permutation of the
payload keys, with different `created_at` and stored `hash`. -/
def blockPerm1 : Block :=
  { index := 3, timestamp := 4, data := [("a", J.num 1), ("b", J.num 2)],
    previous_hash := "p", nonce := 5, hash := "h1", created_at := "c1" }

def blockPerm2 : Block :=
  { index := 3, timestamp := 4, data := [("b", J.num 2), ("a", J.num 1)],
    previous_hash := "p", nonce := 5, hash := "h2", created_at := "c2" }

/-- A block whose payload holds an unserializable object. -/
def blockUns : Block :=
  { index := 0, timestamp := 0, data := [("x", J.uns 0)], previous_hash := "p",
    nonce := 0, hash := "h", created_at := "c" }

/-! ### C9: difficulty clamping and immutability -/

/-- C9: the constructor clamps the difficulty into `[1, 4]`
(`max(1, min(difficulty, 4))`), and no chain operation that returns a new
state (`create_genesis`, `load_chain`, `add_block`) ever changes it. -/
theorem difficulty_clamped_and_immutable :
    (∀ (sha : String → String) (d : Int) (cf : String) (file : PersistedFile)
       (nowIso : String) (ge : GenEnv),
        1 ≤ (mkSimpleBlockchain sha d cf file nowIso ge).difficulty ∧
        (mkSimpleBlockchain sha d cf file nowIso ge).difficulty ≤ 4) ∧
    (∀ (sha : String → String) (bc : SimpleBlockchain) (ge : GenEnv),
        (create_genesis sha bc ge).2.difficulty = bc.difficulty) ∧
    (∀ (sha : String → String) (bc : SimpleBlockchain) (file : PersistedFile)
       (nowIso : String) (ge : GenEnv),
        (load_chain sha bc file nowIso ge).2.difficulty = bc.difficulty) ∧
    (∀ (sha : String → String) (bc : SimpleBlockchain) (data : List (String × J))
       (te : TimeEnv) (ge : GenEnv) (saveOk : Bool),
        (add_block sha bc data te ge saveOk).2.difficulty = bc.difficulty) := by
  refine ⟨fun sha d cf file nowIso ge => ?_, create_genesis_difficulty,
    load_chain_difficulty, add_block_difficulty⟩
  have h : (mkSimpleBlockchain sha d cf file nowIso ge).difficulty = max 1 (min d 4) :=
    load_chain_difficulty ..
  rw [h]
  constructor
  · exact le_max_left 1 (min d 4)
  · exact max_le (by norm_num) (min_le_right d 4)

/-! ### C8: search returns exactly the matching subsequence -/

theorem searchGo_eq (criteria : List (String × J)) :
    ∀ (l : List Block) (acc : List Block),
      searchGo criteria acc l = acc ++ l.filter (blockMatches criteria)
  | [], acc => by simp [searchGo]
  | b :: rest, acc => by
    rw [searchGo, List.filter_cons]
    by_cases h : blockMatches criteria b = true
    · simp [h, searchGo_eq criteria rest]
    · simp [h, searchGo_eq criteria rest]

theorem blockMatches_iff (criteria : List (String × J)) (b : Block) :
    blockMatches criteria b = true ↔
      ∀ kv ∈ criteria, b.data.lookup kv.1 = some kv.2 := by
  simp only [blockMatches, List.all_eq_true]
  constructor
  · intro h kv hkv
    have hh := h kv hkv
    rcases hl : b.data.lookup kv.1 with _ | v
    · rw [hl] at hh
      exact absurd hh (by simp)
    · rw [hl] at hh
      simp only [beq_iff_eq] at hh
      rw [hh]
  · intro h kv hkv
    rw [h kv hkv]
    simp

/-- C8: `search_blocks(criteria)` is exactly the in-order subsequence of the
chain consisting of the blocks whose payload binds every criteria key to
exactly the given value; it is computed as a pure filter over the chain. -/
theorem search_blocks_exact (bc : SimpleBlockchain) (criteria : List (String × J)) :
    search_blocks bc criteria = bc.chain.filter (blockMatches criteria) ∧
    (search_blocks bc criteria).Sublist bc.chain ∧
    (∀ b : Block, b ∈ search_blocks bc criteria ↔
      b ∈ bc.chain ∧ ∀ kv ∈ criteria, b.data.lookup kv.1 = some kv.2) := by
  have h1 : search_blocks bc criteria = bc.chain.filter (blockMatches criteria) := by
    rw [search_blocks, searchGo_eq]
    rfl
  refine ⟨h1, ?_, ?_⟩
  · rw [h1]
    exact List.filter_sublist bc.chain
  · intro b
    rw [h1, List.mem_filter, blockMatches_iff]

/-! ### C10: totality of compute_hash and the fallback digest -/

/-- C10: `compute_hash` is total: it always returns a 64-character hex string
(given that the digest primitive does); when the payload cannot be serialized
it returns the constant fallback `"0" * 64`, so all such blocks hash alike,
and the fallback satisfies every difficulty prefix up to 64. -/
theorem compute_hash_total (sha : String → String)
    (hsha : ∀ s, (sha s).length = 64 ∧ (sha s).data.all isHexChar = true) (b : Block) :
    ((compute_hash sha b).length = 64 ∧ (compute_hash sha b).data.all isHexChar = true) ∧
    (hasUnsPairs b.data = true → compute_hash sha b = fallbackHash) ∧
    (∀ b2 : Block, hasUnsPairs b.data = true → hasUnsPairs b2.data = true →
      compute_hash sha b = compute_hash sha b2) ∧
    (∀ d : Int, d ≤ 64 → hasUnsPairs b.data = true →
      strStarts (zeros d) (compute_hash sha b) = true) := by
  rcases hu : hasUnsPairs b.data with _ | _
  · rw [compute_hash_of_serializable sha hu]
    exact ⟨hsha _, fun h => by simp at h, fun b2 h => by simp at h, fun d _ h => by simp at h⟩
  · rw [compute_hash_of_uns sha hu]
    refine ⟨⟨by decide, by decide⟩, fun _ => rfl, fun b2 _ h2 => ?_, fun d hd _ => ?_⟩
    · rw [compute_hash_of_uns sha h2]
    · exact zeros_starts_fallback hd

/-- Witness for C10 at a concrete digest function and a block with an
unserializable payload. -/
theorem compute_hash_total_witness :
    (compute_hash shaHex blockUns).length = 64 ∧
    compute_hash shaHex blockUns = fallbackHash ∧
    strStarts (zeros 4) (compute_hash shaHex blockUns) = true :=
  ⟨(compute_hash_total shaHex (fun s => by constructor <;> rfl) blockUns).1.1,
   (compute_hash_total shaHex (fun s => by constructor <;> rfl) blockUns).2.1 (by decide),
   (compute_hash_total shaHex (fun s => by constructor <;> rfl) blockUns).2.2.2 4
     (by decide) (by decide)⟩

/-! ### C7: compute_hash is a pure function of exactly the five hashed fields -/

/-- C7: `compute_hash` depends on exactly the five hashed fields — two blocks
agreeing on them (whatever their `created_at` or stored `hash`) digest
equally; the canonical serialization sorts every dict's keys, so a key
permutation of the payload (distinct keys) digests equally as well. -/
theorem compute_hash_deterministic (sha : String → String) :
    (∀ b1 b2 : Block, b1.index = b2.index → b1.timestamp = b2.timestamp →
      b1.data = b2.data → b1.previous_hash = b2.previous_hash → b1.nonce = b2.nonce →
      compute_hash sha b1 = compute_hash sha b2) ∧
    (∀ l : List (String × J),
      ((sortPairs l).map Prod.fst).Pairwise (fun a b => strLe a b = true)) ∧
    (∀ b1 b2 : Block, b1.index = b2.index → b1.timestamp = b2.timestamp →
      b1.previous_hash = b2.previous_hash → b1.nonce = b2.nonce →
      b1.data.Perm b2.data → (b1.data.map Prod.fst).Nodup →
      compute_hash sha b1 = compute_hash sha b2) := by
  refine ⟨fun b1 b2 hi ht hd hp hn => compute_hash_congr sha hi ht hd hp hn,
    fun l => ?_, fun b1 b2 hi ht hp hn hdp hnd => compute_hash_perm sha hi ht hp hn hdp hnd⟩
  exact List.Pairwise.map Prod.fst (fun a b h => h) (sortPairs_sorted l)

/-- Witness for C7: a permuted two-key payload and differing
`created_at`/`hash` fields still digest identically. -/
theorem compute_hash_deterministic_witness :
    compute_hash shaA blockPerm1 = compute_hash shaA blockPerm2 ∧
    blockPerm1.created_at ≠ blockPerm2.created_at ∧ blockPerm1.hash ≠ blockPerm2.hash :=
  ⟨(compute_hash_deterministic shaA).2.2 blockPerm1 blockPerm2 rfl rfl rfl rfl
      (by decide) (by decide),
   by decide, by decide⟩

/-! ### C2: what is_valid really decides -/

/-- The validity predicate exactly as the specification words it: every
block's recomputed hash matches its stored hash, every `previous_hash`
matches the predecessor's stored hash, indices are contiguous from 0, and
every stored hash meets the difficulty prefix. -/
def specValid (sha : String → String) (d : Int) (c : List Block) : Prop :=
  (∀ i, ∀ h : i < c.length, compute_hash sha (c.get ⟨i, h⟩) = (c.get ⟨i, h⟩).hash) ∧
  (∀ i, ∀ h : i + 1 < c.length,
    (c.get ⟨i + 1, h⟩).previous_hash = (c.get ⟨i, by omega⟩).hash) ∧
  (∀ i, ∀ h : i < c.length, (c.get ⟨i, h⟩).index = (i : Int)) ∧
  (∀ i, ∀ h : i < c.length, strStarts (zeros d) (c.get ⟨i, h⟩).hash = true)

/-- A one-block chain whose stored genesis hash does not match its recomputed
hash (under `shaA` the recomputed digest is `"00aa"`, the stored one `"yy"`). -/
def blockBadHash : Block :=
  { index := 0, timestamp := 0, data := [], previous_hash := "0",
    nonce := 0, hash := "yy", created_at := "c" }

def bcBadHash : SimpleBlockchain :=
  { difficulty := 2, chain_file := "data/chain.json", chain := [blockBadHash],
    pending_transactions := [] }

/-- Counterexample to C2 as stated: `is_valid` accepts this chain although the
genesis block's recomputed hash differs from its stored hash (and the stored
hash also fails the difficulty prefix) — the loop never examines block 0 —
so `is_valid` is not equivalent to the spec's four conditions. -/
theorem is_valid_not_specValid :
    is_valid shaA bcBadHash = true ∧ ¬ specValid shaA bcBadHash.difficulty bcBadHash.chain := by
  constructor
  · decide
  · intro h
    have h0 := h.1 0 (by decide)
    revert h0
    decide

/-- C2 (amended): `is_valid` is true iff the chain is nonempty, its first
block has `index = 0` and `previous_hash = "0"`, and every block after the
first has matching recomputed hash, linkage to its predecessor's stored hash,
the successor index, and the difficulty prefix.  (The genesis block's own
hash and proof of work are not checked; the empty chain is invalid.) -/
theorem is_valid_amended (sha : String → String) (bc : SimpleBlockchain) :
    is_valid sha bc = true ↔
      (bc.chain ≠ [] ∧
       (∀ h0 : 0 < bc.chain.length,
          (bc.chain.get ⟨0, h0⟩).index = 0 ∧ (bc.chain.get ⟨0, h0⟩).previous_hash = "0") ∧
       (∀ i, ∀ h : i + 1 < bc.chain.length,
          compute_hash sha (bc.chain.get ⟨i + 1, h⟩) = (bc.chain.get ⟨i + 1, h⟩).hash ∧
          (bc.chain.get ⟨i + 1, h⟩).previous_hash = (bc.chain.get ⟨i, by omega⟩).hash ∧
          (bc.chain.get ⟨i + 1, h⟩).index = (bc.chain.get ⟨i, by omega⟩).index + 1 ∧
          strStarts (zeros bc.difficulty) (bc.chain.get ⟨i + 1, h⟩).hash = true)) := by
  obtain ⟨d, cf, ch, pt⟩ := bc
  rw [is_valid_iff]
  dsimp only
  constructor
  · rintro ⟨g, rest, hch, hg0, hgp, hall, hchain⟩
    subst hch
    refine ⟨by simp, ?_, ?_⟩
    · intro h0
      exact ⟨hg0, hgp⟩
    · intro i h
      have hget : (g :: rest).get ⟨i + 1, h⟩ = rest.get ⟨i, by simpa using h⟩ := rfl
      have hmem : (g :: rest).get ⟨i + 1, h⟩ ∈ rest := by
        rw [hget]
        exact rest.get_mem _ _
      obtain ⟨hch1, hpow⟩ := hall _ hmem
      have hadj := List.chain'_iff_get.mp hchain i
        (by simp only [List.length_cons] at h ⊢; omega)
      exact ⟨hch1, hadj.1, hadj.2, hpow⟩
  · rintro ⟨hne, hgen, hrest⟩
    obtain ⟨g, rest, hch⟩ := List.exists_cons_of_ne_nil hne
    subst hch
    refine ⟨g, rest, rfl, (hgen (by simp)).1, (hgen (by simp)).2, ?_, ?_⟩
    · intro b hb
      obtain ⟨⟨i, hi⟩, hget⟩ := List.mem_iff_get.mp hb
      have h1 : i + 1 < (g :: rest).length := by simp only [List.length_cons]; omega
      have h2 := hrest i h1
      have hsame : (g :: rest).get ⟨i + 1, h1⟩ = b := hget
      rw [hsame] at h2
      exact ⟨h2.1, h2.2.2.2⟩
    · apply List.chain'_iff_get.mpr
      intro i hi
      have h1 : i + 1 < (g :: rest).length := by simp only [List.length_cons] at hi ⊢; omega
      have h2 := hrest i h1
      exact ⟨h2.2.1, h2.2.2.1⟩

/-! ### C3: rollback when persisting a mined block fails -/

/-- C3: on a non-empty chain, if the candidate mines successfully but the
chain write fails, `add_block` returns `None` and the in-memory state is left
exactly as before the call (the appended block is popped again). -/
theorem add_block_rollback_on_save_failure (sha : String → String)
    (bc : SimpleBlockchain) (data : List (String × J)) (te : TimeEnv) (ge : GenEnv)
    (t : Block) (ht : bc.chain.getLast? = some t)
    (hm : (Block.mine sha (candidateBlock sha t data te) bc.difficulty).1 = true) :
    add_block sha bc data te ge false = (none, bc) := by
  have hne : bc.chain.isEmpty = false := by
    rcases hc : bc.chain with _ | ⟨a, l⟩
    · rw [hc] at ht
      simp at ht
    · rfl
  simp [add_block, hne, get_latest_block, ht, hm, List.dropLast_concat]

/-- Witness for C3: a concrete failing save leaves the one-block chain
untouched. -/
theorem add_block_rollback_witness :
    add_block shaA bcA [("k", J.str "v")] teA geA false = (none, bcA) :=
  add_block_rollback_on_save_failure shaA bcA [("k", J.str "v")] teA geA blockA
    (by decide) (by decide)

/-! ### C6: add_block on an empty chain -/

def bcEmpty : SimpleBlockchain :=
  { difficulty := 2, chain_file := "data/chain.json", chain := [],
    pending_transactions := [] }

/-- Counterexample to C6 as stated: on an empty chain, when the genesis block
mines but its persistence fails, `add_block` does return a failure — but the
in-memory chain is NOT empty afterwards: `create_genesis` installs the mined
genesis block before attempting the write and never removes it. -/
theorem add_block_empty_savefail_cex :
    (add_block shaA bcEmpty [("k", J.str "v")] teA geFail true).1 = none ∧
    (add_block shaA bcEmpty [("k", J.str "v")] teA geFail true).2.chain ≠ [] := by
  constructor
  · decide
  · decide

/-- C6 (amended): on an empty chain a genesis block is synthesized and mined
first, and genesis failure aborts the whole append with a failure value; on a
mining failure the chain is left empty (no state change), but on a genesis
persistence failure the mined genesis block remains as the one-block
in-memory chain. -/
theorem add_block_empty_genesis_failure (sha : String → String) (bc : SimpleBlockchain)
    (data : List (String × J)) (te : TimeEnv) (ge : GenEnv) (saveOk : Bool)
    (hempty : bc.chain = []) :
    ((Block.mine sha (genesisBlock sha ge) bc.difficulty).1 = false →
      add_block sha bc data te ge saveOk = (none, bc)) ∧
    ((Block.mine sha (genesisBlock sha ge) bc.difficulty).1 = true → ge.saveOk = false →
      (add_block sha bc data te ge saveOk).1 = none ∧
      (add_block sha bc data te ge saveOk).2.chain =
        [(Block.mine sha (genesisBlock sha ge) bc.difficulty).2]) := by
  constructor
  · intro hm
    simp [add_block, hempty, create_genesis, hm]
  · intro hm hs
    constructor
    · simp [add_block, hempty, create_genesis, hm, hs]
    · simp [add_block, hempty, create_genesis, hm, hs]

/-- Witness for C6 (amended), persistence-failure arm: the mined genesis
block is the whole chain after the failed append. -/
theorem add_block_empty_genesis_failure_witness :
    (add_block shaA bcEmpty [] teA geFail true).1 = none ∧
    (add_block shaA bcEmpty [] teA geFail true).2.chain =
      [(Block.mine shaA (genesisBlock shaA geFail) bcEmpty.difficulty).2] :=
  (add_block_empty_genesis_failure shaA bcEmpty [] teA geFail true rfl).2 (by decide) rfl

/-! ### C1: the append contract on a Ready chain -/

/-- C1: a successful `add_block(data)` on a non-empty chain with tail `t`
appends exactly one block `b'`: the chain grows by one, `b'.index = t.index + 1`,
`b'.previous_hash = t.hash`, `b'`'s payload is the caller's payload merged with
the three system linkage keys, and a chain that was `is_valid` stays `is_valid`. -/
theorem add_block_success_spec (sha : String → String) (bc : SimpleBlockchain)
    (data : List (String × J)) (te : TimeEnv) (ge : GenEnv) (saveOk : Bool)
    (b' : Block) (bc' : SimpleBlockchain) (t : Block)
    (ht : bc.chain.getLast? = some t)
    (hsucc : add_block sha bc data te ge saveOk = (some b', bc')) :
    bc'.chain = bc.chain ++ [b'] ∧
    bc'.chain.length = bc.chain.length + 1 ∧
    b'.index = t.index + 1 ∧
    b'.previous_hash = t.hash ∧
    b'.data = enhancePayload data te t.hash ∧
    (is_valid sha bc = true → is_valid sha bc' = true) := by
  have hne : bc.chain.isEmpty = false := by
    rcases hc : bc.chain with _ | ⟨a, l⟩
    · rw [hc] at ht
      simp at ht
    · rfl
  simp only [add_block, hne, Bool.false_eq_true, if_false, get_latest_block, ht] at hsucc
  by_cases hm : (Block.mine sha (candidateBlock sha t data te) bc.difficulty).1 = true
  · by_cases hs : saveOk = true
    · simp only [hm, hs, if_true] at hsucc
      rw [Prod.mk.injEq, Option.some.injEq] at hsucc
      obtain ⟨hb, hbc⟩ := hsucc
      subst hb
      subst hbc
      refine ⟨rfl, by simp, rfl, rfl, rfl, ?_⟩
      intro hv
      rw [is_valid_iff] at hv ⊢
      obtain ⟨g, rest, hch, hg0, hgp, hall, hchain⟩ := hv
      refine ⟨g, rest ++ [(Block.mine sha (candidateBlock sha t data te) bc.difficulty).2],
        by simp only [hch]; rfl, hg0, hgp, ?_, ?_⟩
      · intro b hb
        rcases List.mem_append.mp hb with hb | hb
        · exact hall b hb
        · have hb' : b = (Block.mine sha (candidateBlock sha t data te) bc.difficulty).2 := by
            simpa using hb
          subst hb'
          constructor
          · exact (mine_hash_consistent sha (candidateBlock sha t data te) bc.difficulty
              (Block.make_hash_consistent sha ..)).symm
          · exact mine_true_starts sha (candidateBlock sha t data te) bc.difficulty hm
      · rw [← List.cons_append]
        apply List.chain'_append.mpr
        refine ⟨hchain, List.chain'_singleton _, ?_⟩
        intro x hx y hy
        have hx' : x = t := by
          rw [← hch] at hx
          rw [ht] at hx
          exact (by simpa using hx : t = x).symm
        have hy' : y = (Block.mine sha (candidateBlock sha t data te) bc.difficulty).2 :=
          (by simpa using hy : _ = y).symm
        subst hx'
        subst hy'
        exact ⟨rfl, rfl⟩
    · simp [hm, hs] at hsucc
  · simp [hm] at hsucc

def newBlockA : Block := candidateBlock shaA blockA [("k", J.str "v")] teA

def bcA' : SimpleBlockchain := { bcA with chain := bcA.chain ++ [newBlockA] }

/-- Witness for C1 at a concrete chain, payload and digest function. -/
theorem add_block_success_witness :
    bcA'.chain = bcA.chain ++ [newBlockA] ∧
    bcA'.chain.length = bcA.chain.length + 1 ∧
    newBlockA.index = blockA.index + 1 ∧
    newBlockA.previous_hash = blockA.hash ∧
    newBlockA.data = enhancePayload [("k", J.str "v")] teA blockA.hash ∧
    (is_valid shaA bcA = true → is_valid shaA bcA' = true) :=
  add_block_success_spec shaA bcA [("k", J.str "v")] teA geA true newBlockA bcA' blockA
    (by decide) (by decide)

/-! ### C4: load-time recovery -/

/-- The mined genesis block that every recovery path installs. -/
def freshGenesis (sha : String → String) (ge : GenEnv) (d : Int) : Block :=
  (Block.mine sha (genesisBlock sha ge) d).2

theorem create_genesis_chain_of_mine_true (sha : String → String)
    (bc : SimpleBlockchain) (ge : GenEnv)
    (hm : (Block.mine sha (genesisBlock sha ge) bc.difficulty).1 = true) :
    (create_genesis sha bc ge).2.chain = [freshGenesis sha ge bc.difficulty] := by
  by_cases hs : ge.saveOk = true <;> simp [create_genesis, freshGenesis, hm, hs]

theorem loadGo_none_iff (nowIso : String) :
    ∀ (rs : List Rec) (acc : List Block),
      (loadGo nowIso acc rs).1 = none ↔ ∃ r ∈ rs, recToBlock r nowIso = none
  | [], acc => by simp [loadGo]
  | r :: rest, acc => by
    rw [loadGo]
    rcases hr : recToBlock r nowIso with _ | b
    · constructor
      · intro _
        exact ⟨r, List.mem_cons_self r rest, hr⟩
      · intro _
        rfl
    · show (loadGo nowIso (acc ++ [b]) rest).1 = none ↔ _
      rw [loadGo_none_iff nowIso rest (acc ++ [b])]
      constructor
      · rintro ⟨x, hx, hxn⟩
        exact ⟨x, List.mem_cons_of_mem r hx, hxn⟩
      · rintro ⟨x, hx, hxn⟩
        rcases List.mem_cons.mp hx with rfl | hx2
        · rw [hr] at hxn
          cases hxn
        · exact ⟨x, hx2, hxn⟩

theorem loadGo_some_eq (nowIso : String) :
    ∀ (rs : List Rec) (acc blocks : List Block),
      (loadGo nowIso acc rs).1 = some blocks →
        loadGo nowIso acc rs = (some blocks, blocks)
  | [], acc, blocks, h => by
    simp only [loadGo] at h ⊢
    obtain rfl : acc = blocks := by simpa using h
    rfl
  | r :: rest, acc, blocks, h => by
    rw [loadGo] at h ⊢
    rcases hr : recToBlock r nowIso with _ | b
    · rw [hr] at h
      exact Option.noConfusion h
    · rw [hr] at h
      exact loadGo_some_eq nowIso rest (acc ++ [b]) blocks h

/-- C4 (amended): whenever the persisted records are rejected — a record with
a missing required field, or a reconstructed chain failing `is_valid`, in
particular a tampered stored hash of any block after the first, a shifted
genesis index, or a shifted successor index — `load_chain` discards
everything and installs the freshly mined genesis block as the whole chain
(provided genesis mining succeeds).  A tampered stored hash of the genesis
block of a one-block chain is NOT rejected. -/
theorem load_chain_recovery (sha : String → String) (bc : SimpleBlockchain)
    (rs : List Rec) (nowIso : String) (ge : GenEnv) (hne : rs ≠ [])
    (hg : (Block.mine sha (genesisBlock sha ge) bc.difficulty).1 = true) :
    ((∃ r ∈ rs, recToBlock r nowIso = none) →
      (load_chain sha bc (.records rs) nowIso ge).2.chain =
        [freshGenesis sha ge bc.difficulty]) ∧
    (∀ blocks : List Block, (loadGo nowIso [] rs).1 = some blocks →
      is_valid sha { bc with chain := blocks } = false →
        (load_chain sha bc (.records rs) nowIso ge).2.chain =
          [freshGenesis sha ge bc.difficulty]) ∧
    (∀ blocks : List Block, (loadGo nowIso [] rs).1 = some blocks →
      ∀ i, ∀ h : i < blocks.length, 1 ≤ i →
        compute_hash sha (blocks.get ⟨i, h⟩) ≠ (blocks.get ⟨i, h⟩).hash →
          (load_chain sha bc (.records rs) nowIso ge).2.chain =
            [freshGenesis sha ge bc.difficulty]) ∧
    (∀ blocks : List Block, (loadGo nowIso [] rs).1 = some blocks →
      ∀ h0 : 0 < blocks.length, (blocks.get ⟨0, h0⟩).index ≠ 0 →
        (load_chain sha bc (.records rs) nowIso ge).2.chain =
          [freshGenesis sha ge bc.difficulty]) ∧
    (∀ blocks : List Block, (loadGo nowIso [] rs).1 = some blocks →
      ∀ i, ∀ h : i + 1 < blocks.length,
        (blocks.get ⟨i + 1, h⟩).index ≠ (blocks.get ⟨i, by omega⟩).index + 1 →
          (load_chain sha bc (.records rs) nowIso ge).2.chain =
            [freshGenesis sha ge bc.difficulty]) := by
  have hrsne : rs.isEmpty = false := by
    rcases rs with _ | ⟨a, l⟩
    · exact absurd rfl hne
    · rfl
  have hinvalid : ∀ blocks : List Block, (loadGo nowIso [] rs).1 = some blocks →
      is_valid sha { bc with chain := blocks } = false →
        (load_chain sha bc (.records rs) nowIso ge).2.chain =
          [freshGenesis sha ge bc.difficulty] := by
    intro blocks hl hv
    have hl2 := loadGo_some_eq nowIso rs [] blocks hl
    simp only [load_chain, hrsne, Bool.false_eq_true, if_false, hl2, hv]
    exact create_genesis_chain_of_mine_true sha _ ge hg
  refine ⟨?_, hinvalid, ?_, ?_, ?_⟩
  · intro hex
    have hl : (loadGo nowIso [] rs).1 = none := (loadGo_none_iff nowIso rs []).mpr hex
    rcases hl2 : loadGo nowIso [] rs with ⟨o, partialChain⟩
    rw [hl2] at hl
    subst hl
    simp only [load_chain, hrsne, Bool.false_eq_true, if_false, hl2]
    exact create_genesis_chain_of_mine_true sha _ ge hg
  · intro blocks hl i h h1 hbad
    apply hinvalid blocks hl
    rcases hv : is_valid sha { bc with chain := blocks } with _ | _
    · rfl
    · exfalso
      obtain ⟨g, rest, hch, hg0, hgp, hall, hchain⟩ := (is_valid_iff sha _).mp hv
      have hch' : blocks = g :: rest := hch
      subst hch'
      obtain ⟨j, rfl⟩ : ∃ j, i = j + 1 := ⟨i - 1, by omega⟩
      have hmem : (g :: rest).get ⟨j + 1, h⟩ ∈ rest :=
        rest.get_mem j (by simpa using h)
      exact hbad (hall _ hmem).1
  · intro blocks hl h0 hbad
    apply hinvalid blocks hl
    rcases hv : is_valid sha { bc with chain := blocks } with _ | _
    · rfl
    · exfalso
      obtain ⟨g, rest, hch, hg0, hgp, hall, hchain⟩ := (is_valid_iff sha _).mp hv
      have hch' : blocks = g :: rest := hch
      subst hch'
      exact hbad hg0
  · intro blocks hl i h hbad
    apply hinvalid blocks hl
    rcases hv : is_valid sha { bc with chain := blocks } with _ | _
    · rfl
    · exfalso
      obtain ⟨g, rest, hch, hg0, hgp, hall, hchain⟩ := (is_valid_iff sha _).mp hv
      have hch' : blocks = g :: rest := hch
      subst hch'
      apply hbad
      have hadj := List.chain'_iff_get.mp hchain i
        (by simp only [List.length_cons] at h ⊢; omega)
      exact hadj.2

/-- A persisted one-block chain whose stored hash has its first character
flipped (`"00aa"` — the digest `shaA` yields — became `"10aa"`); every
required field is present. -/
def recTampered : Rec :=
  { index := some 0, timestamp := some 5, data := some [],
    previous_hash := some "0", nonce := some 42, hash := some "10aa",
    created_at := some "ca" }

/-- The block `load_chain` reconstructs from `recTampered`. -/
def blockTampered : Block :=
  { index := 0, timestamp := 5, data := [], previous_hash := "0",
    nonce := 42, hash := "10aa", created_at := "ca" }

/-- An empty in-memory chain about to load. -/
def bcLoad : SimpleBlockchain :=
  { difficulty := 2, chain_file := "data/chain.json", chain := [],
    pending_transactions := [] }

/-- A record missing the required `hash` field. -/
def recMissingHash : Rec :=
  { index := some 0, timestamp := some 5, data := some [],
    previous_hash := some "0", nonce := some 0, hash := none,
    created_at := none }

/-- Counterexample to C4 as stated: loading a single-block chain whose stored
genesis hash has one flipped character does NOT synthesize a fresh genesis
chain — the corrupted block is kept verbatim (its recomputed digest `"00aa"`
disagrees with the stored `"10aa"`), because `is_valid` never checks the
first block's hash. -/
theorem load_chain_keeps_tampered_genesis :
    (load_chain shaA bcLoad (.records [recTampered]) "now" geA).2.chain = [blockTampered] ∧
    compute_hash shaA blockTampered = "00aa" ∧
    blockTampered.hash = "10aa" ∧
    compute_hash shaA blockTampered ≠ blockTampered.hash := by
  refine ⟨by decide, by decide, by decide, by decide⟩

/-- Witness for C4 (amended): a record lacking a required field makes
`load_chain` install exactly the freshly mined genesis block. -/
theorem load_chain_recovery_witness :
    (load_chain shaA bcLoad (.records [recMissingHash]) "now" geA).2.chain =
      [freshGenesis shaA geA bcLoad.difficulty] :=
  (load_chain_recovery shaA bcLoad [recMissingHash] "now" geA (by decide) (by decide)).1
    ⟨recMissingHash, List.mem_cons_self _ _, rfl⟩

/-! ### C5: the mining loop and its iteration cap -/

/-- When every hash seen strictly before the fuel runs out misses the target,
the loop runs to exhaustion: it returns failure with the state advanced by
exactly `fuel` iterations — even if the very last recomputed hash (left on
the block) does meet the target. -/
theorem mineGo_exhaust (pre : String) (hashAt : Int → String) :
    ∀ (fuel : Nat) (n : Int) (h : String),
      (∀ k, k < fuel → strStarts pre (mineSeq hashAt n h k) = false) →
      mineGo pre hashAt fuel n h = (false, n + fuel, mineSeq hashAt n h fuel)
  | 0, n, h, _ => by simp [mineGo, mineSeq]
  | fuel + 1, n, h, hall => by
    rw [mineGo]
    have h0 : strStarts pre h = false := hall 0 (Nat.succ_pos fuel)
    rw [h0]
    simp only [Bool.false_eq_true, if_false]
    rw [mineGo_exhaust pre hashAt fuel (n + 1) (hashAt (n + 1)) (fun k hk => by
      rw [mineSeq_shift hashAt n h k]
      exact hall (k + 1) (by omega))]
    rw [mineSeq_shift hashAt n h fuel]
    have harith : (n + 1) + (fuel : Int) = n + ((fuel : Nat) + 1 : Nat) := by
      push_cast
      ring
    rw [harith]

/-- The block on which the cap boundary shows: mining starts at nonce
−1000000, so the millionth (and last allowed) iteration recomputes the hash
at nonce 0. -/
def blockBoundary : Block :=
  { index := 0, timestamp := 0, data := [], previous_hash := "",
    nonce := -1000000, hash := "x", created_at := "c" }

/-- The canonical serialization of `blockBoundary` at nonce 0. -/
def targetRender : String := render (canon (hashInput { blockBoundary with nonce := 0 }))

/-- A digest function meeting difficulty 1 exactly on the serialization of
`blockBoundary` at nonce 0 and nowhere else. -/
def shaBoundary : String → String := fun s => if s = targetRender then "0a" else "xx"

theorem canon_boundary (n : Int) :
    canon (hashInput { blockBoundary with nonce := n }) =
      J.obj [("data", J.obj []), ("index", J.num 0), ("nonce", J.num n),
             ("previous_hash", J.str ""), ("timestamp", J.num 0)] := rfl

/-- A negative nonce renders with a leading `'-'` while nonce 0 renders as
`"0"`, so the canonical serializations differ. -/
theorem render_boundary_ne {n : Int} (hn : n < 0) :
    render (canon (hashInput { blockBoundary with nonce := n })) ≠ targetRender := by
  intro heq
  obtain ⟨m, rfl⟩ : ∃ m, n = Int.negSucc m := by
    match n, hn with
    | Int.negSucc m, _ => exact ⟨m, rfl⟩
  have hd := congrArg String.data heq
  rw [targetRender, canon_boundary, canon_boundary] at hd
  simp only [render, renderPairs, renderList, String.data_append, List.append_assoc] at hd
  repeat' replace hd := List.append_cancel_left hd
  replace hd := List.append_cancel_right hd
  have h1 : toString (Int.negSucc m) = "-" ++ Nat.repr (m + 1) := rfl
  rw [h1, String.data_append] at hd
  have h2 : ("-" : String).data = ['-'] := rfl
  have h3 : (toString (0 : Int)).data = ['0'] := rfl
  rw [h2, h3, List.singleton_append] at hd
  injection hd with h4 h5
  exact absurd h4 (by decide)

theorem boundary_hash_neg {n : Int} (hn : n < 0) :
    compute_hash shaBoundary { blockBoundary with nonce := n } = "xx" := by
  rw [@compute_hash_of_serializable shaBoundary { blockBoundary with nonce := n } rfl]
  show (if render (canon (hashInput { blockBoundary with nonce := n })) = targetRender
        then "0a" else "xx") = "xx"
  rw [if_neg (render_boundary_ne hn)]

theorem Block.mine_def (sha : String → String) (b : Block) (d : Int) :
    Block.mine sha b d =
      ((mineGo (zeros d) (fun n => compute_hash sha { b with nonce := n })
          maxIterations b.nonce b.hash).1,
       { b with
           nonce := (mineGo (zeros d) (fun n => compute_hash sha { b with nonce := n })
             maxIterations b.nonce b.hash).2.1,
           hash := (mineGo (zeros d) (fun n => compute_hash sha { b with nonce := n })
             maxIterations b.nonce b.hash).2.2 }) := rfl

theorem mine_boundary_run :
    (Block.mine shaBoundary blockBoundary 1).1 = false ∧
    (Block.mine shaBoundary blockBoundary 1).2.nonce =
      blockBoundary.nonce + (maxIterations : Int) ∧
    (Block.mine shaBoundary blockBoundary 1).2.hash =
      hashSeq shaBoundary blockBoundary maxIterations := by
  have hall : ∀ k, k < maxIterations →
      strStarts (zeros 1) (mineSeq
        (fun n => compute_hash shaBoundary { blockBoundary with nonce := n })
        blockBoundary.nonce blockBoundary.hash k) = false := by
    intro k hk
    cases k with
    | zero => decide
    | succ j =>
      have e1 : mineSeq (fun n => compute_hash shaBoundary { blockBoundary with nonce := n })
          blockBoundary.nonce blockBoundary.hash (j + 1) =
          compute_hash shaBoundary
            { blockBoundary with nonce := blockBoundary.nonce + ((j : Int) + 1) } := rfl
      rw [e1]
      have hneg : blockBoundary.nonce + ((j : Int) + 1) < 0 := by
        show (-1000000 : Int) + ((j : Int) + 1) < 0
        have hj : (j : Int) + 1 < 1000000 := by
          exact_mod_cast (hk : j + 1 < 1000000)
        omega
      rw [boundary_hash_neg hneg]
      decide
  have hrun := mineGo_exhaust (zeros 1)
    (fun n => compute_hash shaBoundary { blockBoundary with nonce := n })
    maxIterations blockBoundary.nonce blockBoundary.hash hall
  refine ⟨?_, ?_, ?_⟩
  · rw [Block.mine_def, hrun]
  · rw [Block.mine_def, hrun]
  · rw [Block.mine_def, hrun]
    rfl

theorem boundary_cap_hash_meets_target :
    strStarts (zeros 1) (hashSeq shaBoundary blockBoundary maxIterations) = true := by
  decide

/-- Counterexample to C5 as stated: on `blockBoundary` with `shaBoundary` the
last allowed iteration (the 1,000,000th, reaching nonce 0) produces a hash
meeting difficulty 1 and leaves it on the block — yet `mine` reports failure,
because the final `iteration >= max_iterations` check wins even though the
target was met within the cap. -/
theorem mine_cap_boundary_cex :
    (Block.mine shaBoundary blockBoundary 1).1 = false ∧
    strStarts (zeros 1) (hashSeq shaBoundary blockBoundary maxIterations) = true ∧
    (Block.mine shaBoundary blockBoundary 1).2.hash =
      hashSeq shaBoundary blockBoundary maxIterations ∧
    (Block.mine shaBoundary blockBoundary 1).2.nonce =
      blockBoundary.nonce + (maxIterations : Int) ∧
    strStarts (zeros 1) (Block.mine shaBoundary blockBoundary 1).2.hash = true := by
  obtain ⟨h1, h2, h3⟩ := mine_boundary_run
  refine ⟨h1, boundary_cap_hash_meets_target, h3, h2, ?_⟩
  rw [h3]
  exact boundary_cap_hash_meets_target

/-- C5 (amended): `mine(difficulty)` succeeds iff some hash seen strictly
before the 1,000,000th iteration (the stored hash, or a recomputation at an
incremented nonce) meets the difficulty target; on success the block's final
hash meets the target; and the loop always terminates within the cap, having
advanced the nonce by at most 1,000,000 with the matching recomputed hash.
When the target is first met exactly at the 1,000,000th iteration, `mine`
still reports failure. -/
theorem mine_spec (sha : String → String) (b : Block) (d : Int) :
    ((Block.mine sha b d).1 = true ↔
      ∃ k, k < maxIterations ∧ strStarts (zeros d) (hashSeq sha b k) = true) ∧
    ((Block.mine sha b d).1 = true →
      strStarts (zeros d) (Block.mine sha b d).2.hash = true) ∧
    (∃ k, k ≤ maxIterations ∧ (Block.mine sha b d).2.nonce = b.nonce + k ∧
      (Block.mine sha b d).2.hash = hashSeq sha b k) :=
  ⟨mine_true_iff sha b d, mine_true_starts sha b d, mine_state sha b d⟩

/-- Witness for C5 (amended): a block whose stored hash already meets
difficulty 2 mines successfully with a target-meeting final hash. -/
theorem mine_spec_witness :
    (Block.mine shaA blockA 2).1 = true ∧
    strStarts (zeros 2) (Block.mine shaA blockA 2).2.hash = true :=
  ⟨by decide, (mine_spec shaA blockA 2).2.1 (by decide)⟩
